import Mathlib

/-!
Verification of the go-jax board engine (`src/go_jax/board.py`).

The board is modelled flattened, as a total function from cell indices to
integer stone values (1 = black, -1 = white, 0 = empty), the shape the code
itself works in for all cell-index operations.  `stepGo` is a shallow
embedding of `GoBoard.step`, factored into named intermediate definitions
that mirror the straight-line stages of the source.
-/

namespace GoJax

/-- Modelled from the spec: the repository imports a disjoint-set-union
module `go_jax/dsu.py` that is not present in the sources (only its tests
and callers are).  This structure and its operations follow the contract of
spec section 4.1: `init` makes singletons, `unionSets` merges by size
(smaller-size root attached under larger-size root, sizes added),
`allRoots` is the batch full root resolution of `get_all_roots` (pointer
following to a fixed point, here with fuel `n`, which suffices for acyclic
parent chains), `compress` records the path compression that
`get_all_roots` performs in place, and `maskedReset` is `masked_reset`. -/
structure DSU where
  n : ℕ
  parent : ℕ → ℕ
  size : ℕ → ℕ

/-- Modelled from the spec: pointer-following root resolution with fuel. -/
def findRoot (parent : ℕ → ℕ) : ℕ → ℕ → ℕ
  | 0, i => i
  | fuel+1, i => if parent i = i then i else findRoot parent fuel (parent i)

/-- Modelled from the spec: `DSU.__init__`, all-singleton state. -/
def DSU.init (n : ℕ) : DSU :=
  { n := n, parent := fun i => i, size := fun _ => 1 }

/-- Modelled from the spec: `union_sets`, union by size.  On a size tie the
second root is attached under the first, matching `dsu_test.py`. -/
def DSU.unionSets (d : DSU) (a b : ℕ) : DSU :=
  let ra := findRoot d.parent d.n a
  let rb := findRoot d.parent d.n b
  if ra = rb then d
  else if d.size ra < d.size rb then
    { d with parent := fun i => if i = ra then rb else d.parent i,
             size := fun i => if i = rb then d.size rb + d.size ra else d.size i }
  else
    { d with parent := fun i => if i = rb then ra else d.parent i,
             size := fun i => if i = ra then d.size ra + d.size rb else d.size i }

/-- Modelled from the spec: the root array returned by `get_all_roots`. -/
def DSU.allRoots (d : DSU) : ℕ → ℕ :=
  fun i => findRoot d.parent d.n i

/-- Modelled from the spec: the path compression `get_all_roots` applies to
the stored parent array. -/
def DSU.compress (d : DSU) : DSU :=
  { d with parent := d.allRoots }

/-- Modelled from the spec: `masked_reset`, returning masked entries to
fresh singletons. -/
def DSU.maskedReset (d : DSU) (m : ℕ → Bool) : DSU :=
  { d with parent := fun i => if m i then i else d.parent i,
           size := fun i => if m i then 1 else d.size i }

/-- Game state of `GoBoard` (its array fields; `board_size` and `komi` are
passed to `stepGo` explicitly).  The board is stored flattened. -/
structure GoState where
  board : ℕ → ℤ
  recentBoards : List (ℕ → ℤ)
  prevPassMove : Bool
  turn : ℤ
  dsu : DSU
  done : Bool
  count : ℕ

/-- Embedding of `GoBoard.reset`. -/
def resetGo (N K : ℕ) : GoState :=
  { board := fun _ => 0
    recentBoards := List.replicate K (fun _ => 0)
    prevPassMove := false
    turn := 1
    dsu := DSU.init (N*N)
    done := false
    count := 0 }

/-- Embedding of `board_clip`: clamp a coordinate into `[0, N-1]`. -/
def bclip (N : ℕ) (x : ℤ) : ℕ :=
  (max 0 (min x ((N : ℤ) - 1))).toNat

/-- Embedding of `is_pass_move = action == board_size**2`. -/
def stepIsPass (N : ℕ) (action : ℤ) : Bool :=
  decide (action = ((N*N : ℕ) : ℤ))

/-- Embedding of `action = jnp.clip(action, 0, board_size**2 - 1)` followed
by flattening `(i, j)` back to a cell index. -/
def stepA (N : ℕ) (action : ℤ) : ℕ :=
  (max 0 (min action (((N*N : ℕ) : ℤ) - 1))).toNat

/-- Embedding of `is_invalid_action = self.board[i, j] != 0`. -/
def stepInvalid0 (N : ℕ) (s : GoState) (action : ℤ) : Bool :=
  decide (s.board (stepA N action) ≠ 0)

/-- Embedding of `board = self.board.at[i, j].set(self.turn)`, flattened:
the tentative post-placement board. -/
def stepPost (N : ℕ) (s : GoState) (action : ℤ) : ℕ → ℤ :=
  fun c => if c = stepA N action then s.turn else s.board c

/-- Embedding of `l1 = board_clip(i - 1) * board_size + j`. -/
def stepL1 (N : ℕ) (action : ℤ) : ℕ :=
  bclip N ((stepA N action / N : ℕ) - 1) * N + stepA N action % N

/-- Embedding of `l2 = board_clip(i + 1) * board_size + j`. -/
def stepL2 (N : ℕ) (action : ℤ) : ℕ :=
  bclip N ((stepA N action / N : ℕ) + 1) * N + stepA N action % N

/-- Embedding of `l3 = i * board_size + board_clip(j - 1)`. -/
def stepL3 (N : ℕ) (action : ℤ) : ℕ :=
  (stepA N action / N) * N + bclip N ((stepA N action % N : ℕ) - 1)

/-- Embedding of `l4 = i * board_size + board_clip(j + 1)`. -/
def stepL4 (N : ℕ) (action : ℤ) : ℕ :=
  (stepA N action / N) * N + bclip N ((stepA N action % N : ℕ) + 1)

/-- Embedding of `update_dsu`: union the played cell with a neighbor when
the post-placement colors coincide, else leave the tracker alone. -/
def updateDsu (b : ℕ → ℤ) (a : ℕ) (d : DSU) (loc : ℕ) : DSU :=
  if b a = b loc then d.unionSets a loc else d

/-- The tracker after the four `update_dsu` calls of `step`. -/
def stepDsu1 (N : ℕ) (s : GoState) (action : ℤ) : DSU :=
  let b := stepPost N s action
  let a := stepA N action
  updateDsu b a
    (updateDsu b a
      (updateDsu b a
        (updateDsu b a s.dsu (stepL1 N action))
        (stepL2 N action))
      (stepL3 N action))
    (stepL4 N action)

/-- Embedding of `roots = dsu.get_all_roots()` inside `step`. -/
def stepRoots (N : ℕ) (s : GoState) (action : ℤ) : ℕ → ℕ :=
  (stepDsu1 N s action).allRoots

/-- The tracker after the in-place path compression of `get_all_roots`. -/
def stepDsu2 (N : ℕ) (s : GoState) (action : ℤ) : DSU :=
  (stepDsu1 N s action).compress

/-- Embedding of `nearby_filter`: whether some orthogonal in-board neighbor
of cell `c` satisfies `x` (the pad-and-shift stencil of the source, with
zero padding, written out at each boundary). -/
def nearbyFilter (N : ℕ) (x : ℕ → Bool) (c : ℕ) : Bool :=
  ((decide (0 < c / N) && x ((c / N - 1)*N + c % N)) ||
   (decide (c / N < N-1) && x ((c / N + 1)*N + c % N))) ||
  ((decide (0 < c % N) && x ((c / N)*N + (c % N - 1))) ||
   (decide (c % N < N-1) && x ((c / N)*N + (c % N + 1))))

/-- The `alive = jnp.any(nearby_empty)` test of `remove_stones`: some cell
of the root-region of `loc` has an empty orthogonal neighbor. -/
def removeAlive (N : ℕ) (roots : ℕ → ℕ) (b : ℕ → ℤ) (loc : ℕ) : Bool :=
  (List.range (N*N)).any (fun c =>
    decide (roots c = roots loc) && nearbyFilter N (fun e => decide (b e = 0)) c)

/-- The `cleared_board = jnp.where(region, 0, board)` of `remove_stones`. -/
def clearRegion (roots : ℕ → ℕ) (b : ℕ → ℤ) (loc : ℕ) : ℕ → ℤ :=
  fun c => if roots c = roots loc then 0 else b c

/-- Embedding of `remove_stones`: clear the root-region of `loc` when no
cell of the region has an empty orthogonal neighbor. -/
def removeStones (N : ℕ) (roots : ℕ → ℕ) (b : ℕ → ℤ) (loc : ℕ) : ℕ → ℤ :=
  if removeAlive N roots b loc then b else clearRegion roots b loc

/-- Embedding of one `select_tree(board[l] == opp, remove_stones(board, l),
board)` stage of `step`. -/
def killAt (N : ℕ) (roots : ℕ → ℕ) (opp : ℤ) (b : ℕ → ℤ) (loc : ℕ) : ℕ → ℤ :=
  if b loc = opp then removeStones N roots b loc else b

/-- The opponent color `opp = -board[action]` read off the post-placement
board. -/
def stepOpp (N : ℕ) (s : GoState) (action : ℤ) : ℤ :=
  -(stepPost N s action (stepA N action))

/-- The board after the four opponent-capture stages of `step`. -/
def stepCaptured (N : ℕ) (s : GoState) (action : ℤ) : ℕ → ℤ :=
  killAt N (stepRoots N s action) (stepOpp N s action)
    (killAt N (stepRoots N s action) (stepOpp N s action)
      (killAt N (stepRoots N s action) (stepOpp N s action)
        (killAt N (stepRoots N s action) (stepOpp N s action)
          (stepPost N s action) (stepL1 N action))
        (stepL2 N action))
      (stepL3 N action))
    (stepL4 N action)

/-- The board after the unconditional self-capture `remove_stones` call. -/
def stepSelfBoard (N : ℕ) (s : GoState) (action : ℤ) : ℕ → ℤ :=
  removeStones N (stepRoots N s action) (stepCaptured N s action) (stepA N action)

/-- The invalid flag after the self-capture test:
`is_invalid_action or board[action] == 0`. -/
def stepInvalid1 (N : ℕ) (s : GoState) (action : ℤ) : Bool :=
  stepInvalid0 N s action || decide (stepSelfBoard N s action (stepA N action) = 0)

/-- Embedding of the tracker reset `dsu.masked_reset(board == 0)`. -/
def stepDsu3 (N : ℕ) (s : GoState) (action : ℤ) : DSU :=
  (stepDsu2 N s action).maskedReset (fun c => decide (stepSelfBoard N s action c = 0))

/-- Whole-board equality over the `N*N` cells, as in
`jnp.all(recent_boards == board[None], axis=(1, 2))`. -/
def boardsEq (N : ℕ) (b1 b2 : ℕ → ℤ) : Bool :=
  decide (∀ c < N*N, b1 c = b2 c)

/-- Embedding of `same_board`: some recent snapshot equals the resulting
board. -/
def stepSameBoard (N : ℕ) (s : GoState) (action : ℤ) : Bool :=
  s.recentBoards.any (fun rb => boardsEq N rb (stepSelfBoard N s action))

/-- Embedding of `repeat_position = same_board and not is_pass_move`. -/
def stepRepeat (N : ℕ) (s : GoState) (action : ℤ) : Bool :=
  stepSameBoard N s action && !(stepIsPass N action)

/-- The invalid flag returned by `step`: occupied cell, self-capture, or
repetition, then forced to `false` for a pass move. -/
def stepInvalid (N : ℕ) (s : GoState) (action : ℤ) : Bool :=
  if stepIsPass N action then false
  else stepInvalid1 N s action || stepRepeat N s action

/-- The board stored in the new state: a pass restores the pre-move board. -/
def stepBoardFinal (N : ℕ) (s : GoState) (action : ℤ) : ℕ → ℤ :=
  if stepIsPass N action then s.board else stepSelfBoard N s action

/-- The tracker stored in the new state: a pass restores the pre-move
tracker. -/
def stepDsuFinal (N : ℕ) (s : GoState) (action : ℤ) : DSU :=
  if stepIsPass N action then s.dsu else stepDsu3 N s action

/-- The done flag of `step`:
`done or invalid or two_passes or count + 1 >= 2 * N * N`. -/
def stepDone (N : ℕ) (s : GoState) (action : ℤ) : Bool :=
  s.done || stepInvalid N s action || (s.prevPassMove && stepIsPass N action)
    || decide (s.count + 1 ≥ 2*(N*N))

/-- Embedding of `jnp.sum(board == turn)` over the `N*N` cells. -/
def countStones (N : ℕ) (b : ℕ → ℤ) (t : ℤ) : ℕ :=
  ((List.range (N*N)).filter (fun c => decide (b c = t))).length

/-- The per-cell indicator of `count_eyes`: all four orthogonal neighbors
hold color `t`, off-board neighbors padded with `True`. -/
def eyeInd (N : ℕ) (b : ℕ → ℤ) (t : ℤ) (c : ℕ) : Bool :=
  ((decide (c / N = 0) || decide (b ((c / N - 1)*N + c % N) = t)) &&
   (decide (c / N = N-1) || decide (b ((c / N + 1)*N + c % N) = t))) &&
  ((decide (c % N = 0) || decide (b ((c / N)*N + (c % N - 1)) = t)) &&
   (decide (c % N = N-1) || decide (b ((c / N)*N + (c % N + 1)) = t)))

/-- Embedding of `count_eyes`. -/
def countEyes (N : ℕ) (b : ℕ → ℤ) (t : ℤ) : ℕ :=
  ((List.range (N*N)).filter (fun c => eyeInd N b t c)).length

/-- Embedding of `final_score(board, turn)`.  `selfTurn` is the object
attribute `self.turn` that the komi term reads; `t` is the perspective
argument. -/
def finalScore (N : ℕ) (komi : ℚ) (selfTurn : ℤ) (b : ℕ → ℤ) (t : ℤ) : ℚ :=
  let my : ℚ := ((countStones N b t : ℚ) + (countEyes N b t : ℚ)) - (selfTurn : ℚ) * komi
  let opp : ℚ := (countStones N b (-t) : ℚ) + (countEyes N b (-t) : ℚ)
  my - opp

/-- The game score `step` computes: `final_score(board, self.turn)` on the
post-move (pass-restored) board. -/
def stepScore (N : ℕ) (komi : ℚ) (s : GoState) (action : ℤ) : ℚ :=
  finalScore N komi s.turn (stepBoardFinal N s action) s.turn

/-- The reward of `step`: `0`, overridden to `±1` by the score when done,
overridden to `-1` when invalid. -/
def stepReward (N : ℕ) (komi : ℚ) (s : GoState) (action : ℤ) : ℚ :=
  if stepInvalid N s action then -1
  else if stepDone N s action then (if 0 < stepScore N komi s action then 1 else -1)
  else 0

/-- Embedding of `GoBoard.step`: the new state and the reward. -/
def stepGo (N : ℕ) (komi : ℚ) (s : GoState) (action : ℤ) : GoState × ℚ :=
  let board := stepBoardFinal N s action
  ({ board := board
     recentBoards := s.recentBoards.tail ++ [board]
     prevPassMove := stepIsPass N action
     turn := if stepDone N s action then s.turn else -s.turn
     dsu := stepDsuFinal N s action
     done := stepDone N s action
     count := s.count + 1 },
   stepReward N komi s action)

/-- Orthogonal adjacency of two flattened in-board cell indices. -/
def adjacentCells (N a b : ℕ) : Prop :=
  a < N*N ∧ b < N*N ∧
  ((a / N = b / N ∧ (a % N + 1 = b % N ∨ b % N + 1 = a % N)) ∨
   (a % N = b % N ∧ (a / N + 1 = b / N ∨ b / N + 1 = a / N)))

instance (N a b : ℕ) : Decidable (adjacentCells N a b) := by
  unfold adjacentCells; infer_instance

/-- One step of same-colored occupied connectivity on a board. -/
def groupRel (N : ℕ) (b : ℕ → ℤ) (x y : ℕ) : Prop :=
  adjacentCells N x y ∧ b x = b y ∧ b x ≠ 0

instance (N : ℕ) (b : ℕ → ℤ) (x y : ℕ) : Decidable (groupRel N b x y) := by
  unfold groupRel; infer_instance

/-- Two cells lie in the same group: reflexive-transitive closure of
same-colored occupied adjacency (a maximal connected same-colored set of
stones, plus the trivial relation on every cell with itself). -/
def sameGroup (N : ℕ) (b : ℕ → ℤ) : ℕ → ℕ → Prop :=
  Relation.ReflTransGen (groupRel N b)

/-- The group of cell `c` has a liberty: some cell of the group has an
empty orthogonal neighbor. -/
def groupLib (N : ℕ) (b : ℕ → ℤ) (c : ℕ) : Prop :=
  ∃ x, sameGroup N b c x ∧ ∃ e, adjacentCells N x e ∧ b e = 0

/-- The root array delivered by the group tracker represents the group
structure of a board: on in-board cells, equal roots are exactly
same-group membership (spec section 3 tracker invariant). -/
def rootsRepresent (N : ℕ) (roots : ℕ → ℕ) (b : ℕ → ℤ) : Prop :=
  ∀ a c, a < N*N → c < N*N → (roots a = roots c ↔ sameGroup N b a c)

/-- Root class `r` is an opponent-colored group of `pb` with no liberty. -/
def deadOppRoot (N : ℕ) (roots : ℕ → ℕ) (pb : ℕ → ℤ) (opp : ℤ) (r : ℕ) : Prop :=
  (∃ w, w < N*N ∧ roots w = r ∧ pb w = opp) ∧
  ¬ (∃ x, x < N*N ∧ roots x = r ∧ ∃ e, adjacentCells N x e ∧ pb e = 0)

/-- Invariant carried through the opponent-capture stages: the current
board equals the post-placement board `pb` with the classes of `S` cleared,
and `S` contains only dead opponent classes. -/
def killInv (N : ℕ) (roots : ℕ → ℕ) (pb : ℕ → ℤ) (opp : ℤ)
    (S : ℕ → Prop) (b : ℕ → ℤ) : Prop :=
  (∀ c, c < N*N → (S (roots c) → b c = 0) ∧ (¬ S (roots c) → b c = pb c)) ∧
  (∀ r, S r → deadOppRoot N roots pb opp r)

/-- The root classes cleared by the four opponent-capture stages: classes
of a clamped neighbor of the played cell that are opponent-colored and have
no liberty in the post-placement board. -/
def touchedDeadRoots (N : ℕ) (s : GoState) (action : ℤ) : ℕ → Prop :=
  fun r =>
    (r = stepRoots N s action (stepL1 N action) ∨
     r = stepRoots N s action (stepL2 N action) ∨
     r = stepRoots N s action (stepL3 N action) ∨
     r = stepRoots N s action (stepL4 N action)) ∧
    deadOppRoot N (stepRoots N s action) (stepPost N s action)
      (stepOpp N s action) r

/-- Statement of the spec's scoring formula taken at its word for claim C7:
the komi adjustment is a fixed bonus charged against the perspective color
(in favor of the non-perspective color), for either perspective. -/
def specFinalScore (N : ℕ) (komi : ℚ) (b : ℕ → ℤ) (t : ℤ) : ℚ :=
  ((countStones N b t : ℚ) + (countEyes N b t : ℚ)) -
    ((countStones N b (-t) : ℚ) + (countEyes N b (-t) : ℚ)) - komi

/-- States reachable from `reset` by any sequence of `step` calls. -/
inductive ReachableGo (N K : ℕ) (komi : ℚ) : GoState → Prop
  | start : ReachableGo N K komi (resetGo N K)
  | move (s : GoState) (action : ℤ) :
      ReachableGo N K komi s → ReachableGo N K komi (stepGo N komi s action).1

/-- Concrete 2-by-2 state: a white stone at cell 0, a black stone at cell
1, black to move.  Playing black at cell 2 captures the white stone. -/
def w1State : GoState :=
  { board := fun c => if c = 0 then -1 else if c = 1 then 1 else 0
    recentBoards := [fun _ => 0]
    prevPassMove := false
    turn := 1
    dsu := DSU.init 4
    done := false
    count := 0 }

theorem pos_of_lt_sq {a N : ℕ} (h : a < N*N) : 0 < N := by
  rcases Nat.eq_zero_or_pos N with h0 | h1
  · subst h0; simp at h
  · exact h1

theorem cell_lt {N i j : ℕ} (hi : i < N) (hj : j < N) : i*N + j < N*N :=
  calc i*N + j < i*N + N := by omega
    _ = (i+1)*N := by ring
    _ ≤ N*N := Nat.mul_le_mul_right _ (by omega)

theorem cell_div {N i j : ℕ} (hj : j < N) : (i*N + j) / N = i := by
  have h1 : i*N + j = j + N*i := by ring
  rw [h1, Nat.add_mul_div_left _ _ (by omega : 0 < N), Nat.div_eq_of_lt hj]
  omega

theorem cell_mod {N i j : ℕ} (hj : j < N) : (i*N + j) % N = j := by
  have h1 : i*N + j = j + N*i := by ring
  rw [h1, Nat.add_mul_mod_self_left, Nat.mod_eq_of_lt hj]

theorem div_lt_of_lt_sq {a N : ℕ} (h : a < N*N) : a / N < N := by
  exact (Nat.div_lt_iff_lt_mul (pos_of_lt_sq h)).mpr h

theorem mod_lt_of_lt_sq {a N : ℕ} (h : a < N*N) : a % N < N :=
  Nat.mod_lt _ (pos_of_lt_sq h)

theorem cell_recon {a N : ℕ} (_h : a < N*N) : (a / N) * N + a % N = a := by
  rw [Nat.mul_comm]; exact Nat.div_add_mod a N

theorem stepA_coe {N a : ℕ} (h : a < N*N) : stepA N (a : ℤ) = a := by
  unfold stepA; omega

theorem stepIsPass_coe {N a : ℕ} (h : a < N*N) : stepIsPass N (a : ℤ) = false := by
  unfold stepIsPass
  simp only [decide_eq_false_iff_not]
  omega

theorem stepPost_self {N : ℕ} (s : GoState) {a : ℕ} (h : a < N*N) :
    stepPost N s (a : ℤ) a = s.turn := by
  unfold stepPost
  rw [stepA_coe h]
  simp

theorem stepOpp_coe {N : ℕ} (s : GoState) {a : ℕ} (h : a < N*N) :
    stepOpp N s (a : ℤ) = -s.turn := by
  unfold stepOpp
  rw [stepA_coe h, stepPost_self s h]

theorem bclip_lt {N : ℕ} (hN : 0 < N) (x : ℤ) : bclip N x < N := by
  unfold bclip; omega

theorem stepL1_lt {N a : ℕ} (h : a < N*N) : stepL1 N (a : ℤ) < N*N := by
  unfold stepL1
  rw [stepA_coe h]
  exact cell_lt (bclip_lt (pos_of_lt_sq h) _) (mod_lt_of_lt_sq h)

theorem stepL2_lt {N a : ℕ} (h : a < N*N) : stepL2 N (a : ℤ) < N*N := by
  unfold stepL2
  rw [stepA_coe h]
  exact cell_lt (bclip_lt (pos_of_lt_sq h) _) (mod_lt_of_lt_sq h)

theorem stepL3_lt {N a : ℕ} (h : a < N*N) : stepL3 N (a : ℤ) < N*N := by
  unfold stepL3
  rw [stepA_coe h]
  exact cell_lt (div_lt_of_lt_sq h) (bclip_lt (pos_of_lt_sq h) _)

theorem stepL4_lt {N a : ℕ} (h : a < N*N) : stepL4 N (a : ℤ) < N*N := by
  unfold stepL4
  rw [stepA_coe h]
  exact cell_lt (div_lt_of_lt_sq h) (bclip_lt (pos_of_lt_sq h) _)

theorem bclip_sub_one {N i : ℕ} (hi : i < N) : bclip N ((i : ℤ) - 1) = i - 1 := by
  unfold bclip; omega

theorem bclip_add_one_of_lt {N i : ℕ} (hi : i + 1 < N) :
    bclip N ((i : ℤ) + 1) = i + 1 := by
  unfold bclip; omega

theorem adj_mem_neighbors {N a c : ℕ} (ha : a < N*N)
    (hadj : adjacentCells N c a) :
    c = stepL1 N (a : ℤ) ∨ c = stepL2 N (a : ℤ) ∨
    c = stepL3 N (a : ℤ) ∨ c = stepL4 N (a : ℤ) := by
  obtain ⟨hc, -, hd⟩ := hadj
  have hrc := cell_recon hc
  have hcN := div_lt_of_lt_sq hc
  have hcM := mod_lt_of_lt_sq hc
  have haN := div_lt_of_lt_sq ha
  have haM := mod_lt_of_lt_sq ha
  rcases hd with ⟨h1, h2 | h2⟩ | ⟨h1, h2 | h2⟩
  · right; right; left
    unfold stepL3
    rw [stepA_coe ha, bclip_sub_one haM, ← h2, ← h1]
    simp only [Nat.add_sub_cancel]
    exact hrc.symm
  · right; right; right
    unfold stepL4
    rw [stepA_coe ha,
      bclip_add_one_of_lt (by rw [h2]; exact hcM : a % N + 1 < N), h2, ← h1]
    exact hrc.symm
  · left
    unfold stepL1
    rw [stepA_coe ha, bclip_sub_one haN, ← h2]
    simp only [Nat.add_sub_cancel]
    rw [← h1]
    exact hrc.symm
  · right; left
    unfold stepL2
    rw [stepA_coe ha,
      bclip_add_one_of_lt (by rw [h2]; exact hcN : a / N + 1 < N), h2, ← h1]
    exact hrc.symm

theorem nearbyFilter_iff {N : ℕ} (x : ℕ → Bool) {c : ℕ} (hc : c < N*N) :
    nearbyFilter N x c = true ↔ ∃ e, adjacentCells N c e ∧ x e = true := by
  have hN := pos_of_lt_sq hc
  have hi : c / N < N := div_lt_of_lt_sq hc
  have hj : c % N < N := mod_lt_of_lt_sq hc
  have hrc := cell_recon hc
  unfold nearbyFilter
  simp only [Bool.or_eq_true, Bool.and_eq_true, decide_eq_true_eq]
  constructor
  · rintro ((⟨h0, hx⟩ | ⟨h0, hx⟩) | (⟨h0, hx⟩ | ⟨h0, hx⟩))
    · refine ⟨(c / N - 1)*N + c % N, ⟨hc, cell_lt (by omega) hj, ?_⟩, hx⟩
      rw [cell_div hj, cell_mod hj]
      right
      exact ⟨rfl, Or.inr (by omega)⟩
    · refine ⟨(c / N + 1)*N + c % N, ⟨hc, cell_lt (by omega) hj, ?_⟩, hx⟩
      rw [cell_div hj, cell_mod hj]
      right
      exact ⟨rfl, Or.inl rfl⟩
    · refine ⟨(c / N)*N + (c % N - 1), ⟨hc, cell_lt hi (by omega), ?_⟩, hx⟩
      rw [cell_div (by omega : c % N - 1 < N), cell_mod (by omega : c % N - 1 < N)]
      left
      exact ⟨rfl, Or.inr (by omega)⟩
    · refine ⟨(c / N)*N + (c % N + 1), ⟨hc, cell_lt hi (by omega), ?_⟩, hx⟩
      rw [cell_div (by omega : c % N + 1 < N), cell_mod (by omega : c % N + 1 < N)]
      left
      exact ⟨rfl, Or.inl rfl⟩
  · rintro ⟨e, ⟨-, he, hd⟩, hx⟩
    have hre := cell_recon he
    have hie : e / N < N := div_lt_of_lt_sq he
    have hje : e % N < N := mod_lt_of_lt_sq he
    rcases hd with ⟨h1, h2 | h2⟩ | ⟨h1, h2 | h2⟩
    · right; right
      have hb : c % N + 1 < N := by rw [h2]; exact hje
      refine ⟨lt_tsub_iff_right.mpr hb, ?_⟩
      have hh : (c / N)*N + (c % N + 1) = e := by rw [h1, h2]; exact hre
      rw [hh]; exact hx
    · right; left
      refine ⟨by rw [← h2]; exact Nat.succ_pos _, ?_⟩
      have hh : (c / N)*N + (c % N - 1) = e := by
        rw [h1, ← h2]
        simp only [Nat.add_sub_cancel]
        exact hre
      rw [hh]; exact hx
    · left; right
      have hb : c / N + 1 < N := by rw [h2]; exact hie
      refine ⟨lt_tsub_iff_right.mpr hb, ?_⟩
      have hh : (c / N + 1)*N + c % N = e := by rw [h2, h1]; exact hre
      rw [hh]; exact hx
    · left; left
      refine ⟨by rw [← h2]; exact Nat.succ_pos _, ?_⟩
      have hh : (c / N - 1)*N + c % N = e := by
        rw [← h2]
        simp only [Nat.add_sub_cancel]
        rw [h1]
        exact hre
      rw [hh]; exact hx

theorem adjacentCells_symm {N a b : ℕ} (h : adjacentCells N a b) :
    adjacentCells N b a := by
  obtain ⟨ha, hb, hd⟩ := h
  exact ⟨hb, ha, by tauto⟩

theorem groupRel_symm {N : ℕ} {b : ℕ → ℤ} {x y : ℕ} (h : groupRel N b x y) :
    groupRel N b y x :=
  ⟨adjacentCells_symm h.1, h.2.1.symm, fun hy => h.2.2 (h.2.1.trans hy)⟩

theorem sameGroup_symm {N : ℕ} {b : ℕ → ℤ} {x y : ℕ} (h : sameGroup N b x y) :
    sameGroup N b y x := by
  induction h with
  | refl => exact Relation.ReflTransGen.refl
  | tail _ h2 ih => exact Relation.ReflTransGen.head (groupRel_symm h2) ih

theorem sameGroup_color {N : ℕ} {b : ℕ → ℤ} {x y : ℕ} (h : sameGroup N b x y) :
    b x = b y := by
  induction h with
  | refl => rfl
  | tail _ h2 ih => exact ih.trans h2.2.1

theorem sameGroup_bound {N : ℕ} {b : ℕ → ℤ} {x y : ℕ} (h : sameGroup N b x y) :
    x = y ∨ (x < N*N ∧ y < N*N) := by
  induction h with
  | refl => exact Or.inl rfl
  | tail _ h2 ih =>
      right
      refine ⟨?_, h2.1.2.1⟩
      rcases ih with rfl | ⟨hx, -⟩
      · exact h2.1.1
      · exact hx

theorem sameGroup_eq_of_empty {N : ℕ} {b : ℕ → ℤ}
    (h : ∀ x y, ¬ groupRel N b x y) {x y : ℕ} (hxy : sameGroup N b x y) :
    x = y := by
  induction hxy with
  | refl => rfl
  | tail _ h2 _ => exact absurd h2 (h _ _)

theorem rootsRep_color {N : ℕ} {roots : ℕ → ℕ} {pb : ℕ → ℤ}
    (hrep : rootsRepresent N roots pb) :
    ∀ x y, x < N*N → y < N*N → roots x = roots y → pb x = pb y :=
  fun x y hx hy hr => sameGroup_color ((hrep x y hx hy).mp hr)

theorem rootsRep_merge {N : ℕ} {roots : ℕ → ℕ} {pb : ℕ → ℤ}
    (hrep : rootsRepresent N roots pb) :
    ∀ x y, x < N*N → y < N*N → adjacentCells N x y → pb x = pb y → pb x ≠ 0 →
      roots x = roots y :=
  fun x y hx hy hadj hc hnz =>
    (hrep x y hx hy).mpr (Relation.ReflTransGen.single ⟨hadj, hc, hnz⟩)

theorem removeAlive_iff (N : ℕ) (roots : ℕ → ℕ) (b : ℕ → ℤ) (loc : ℕ) :
    removeAlive N roots b loc = true ↔
      ∃ x, x < N*N ∧ roots x = roots loc ∧
        ∃ e, adjacentCells N x e ∧ b e = 0 := by
  unfold removeAlive
  rw [List.any_eq_true]
  constructor
  · rintro ⟨x, hmem, hx⟩
    rw [List.mem_range] at hmem
    rw [Bool.and_eq_true, decide_eq_true_eq] at hx
    obtain ⟨hr, hnf⟩ := hx
    obtain ⟨e, he, hbe⟩ := (nearbyFilter_iff _ hmem).mp hnf
    rw [decide_eq_true_eq] at hbe
    exact ⟨x, hmem, hr, e, he, hbe⟩
  · rintro ⟨x, hx, hr, e, he, hbe⟩
    refine ⟨x, List.mem_range.mpr hx, ?_⟩
    rw [Bool.and_eq_true, decide_eq_true_eq]
    refine ⟨hr, (nearbyFilter_iff _ hx).mpr ⟨e, he, ?_⟩⟩
    rw [decide_eq_true_eq]
    exact hbe

theorem removeStones_val (N : ℕ) (roots : ℕ → ℕ) (b : ℕ → ℤ) (loc c : ℕ) :
    removeStones N roots b loc c = b c ∨ removeStones N roots b loc c = 0 := by
  unfold removeStones clearRegion
  by_cases h : removeAlive N roots b loc = true
  · rw [if_pos h]; exact Or.inl rfl
  · rw [if_neg h]
    by_cases h2 : roots c = roots loc
    · right; simp [h2]
    · left; simp [h2]

theorem killAt_val (N : ℕ) (roots : ℕ → ℕ) (opp : ℤ) (b : ℕ → ℤ) (loc c : ℕ) :
    killAt N roots opp b loc c = b c ∨ killAt N roots opp b loc c = 0 := by
  unfold killAt
  by_cases h : b loc = opp
  · rw [if_pos h]; exact removeStones_val N roots b loc c
  · rw [if_neg h]; exact Or.inl rfl

theorem killInv_init {N : ℕ} (roots : ℕ → ℕ) (pb : ℕ → ℤ) (opp : ℤ) :
    killInv N roots pb opp (fun _ => False) pb := by
  refine ⟨fun c _ => ⟨fun hf => hf.elim, fun _ => rfl⟩, fun r hr => hr.elim⟩

theorem killInv_congr {N : ℕ} {roots : ℕ → ℕ} {pb : ℕ → ℤ} {opp : ℤ}
    {S T : ℕ → Prop} {b : ℕ → ℤ} (h : ∀ r, S r ↔ T r)
    (hinv : killInv N roots pb opp S b) : killInv N roots pb opp T b := by
  obtain ⟨hB, hS⟩ := hinv
  constructor
  · intro c hc
    exact ⟨fun hs => (hB c hc).1 ((h _).mpr hs),
           fun hns => (hB c hc).2 (fun hs => hns ((h _).mp hs))⟩
  · intro r hr
    exact hS r ((h _).mpr hr)

theorem killAt_inv {N : ℕ} {roots : ℕ → ℕ} {pb : ℕ → ℤ} {opp : ℤ}
    (hM : ∀ x y, x < N*N → y < N*N → roots x = roots y → pb x = pb y)
    (hMerge : ∀ x y, x < N*N → y < N*N → adjacentCells N x y → pb x = pb y →
      pb x ≠ 0 → roots x = roots y)
    (hopp : opp ≠ 0)
    {S : ℕ → Prop} {b : ℕ → ℤ} {l : ℕ} (hl : l < N*N)
    (hinv : killInv N roots pb opp S b) :
    killInv N roots pb opp
      (fun r => S r ∨ (r = roots l ∧ deadOppRoot N roots pb opp r))
      (killAt N roots opp b l) := by
  obtain ⟨hB, hS⟩ := hinv
  unfold killAt
  by_cases hcond : b l = opp
  swap
  · rw [if_neg hcond]
    constructor
    · intro c hc
      constructor
      · rintro (hSc | ⟨hrc, hdead⟩)
        · exact (hB c hc).1 hSc
        · by_cases hSl : S (roots l)
          · exact (hB c hc).1 (hrc ▸ hSl)
          · exfalso
            obtain ⟨⟨w, hw, hrw, hpw⟩, -⟩ := hdead
            have hwl : pb w = pb l := hM w l hw hl (by rw [hrw, hrc])
            have hbl : b l = pb l := (hB l hl).2 hSl
            exact hcond (by rw [hbl, ← hwl, hpw])
      · intro hnS
        exact (hB c hc).2 (fun hSc => hnS (Or.inl hSc))
    · rintro r (hSr | ⟨-, hdead⟩)
      · exact hS r hSr
      · exact hdead
  · rw [if_pos hcond]
    have hSl : ¬ S (roots l) := fun hSl => hopp (hcond.symm.trans ((hB l hl).1 hSl))
    have hpl : pb l = opp := by rw [← (hB l hl).2 hSl]; exact hcond
    have hstab : (∃ x, x < N*N ∧ roots x = roots l ∧
          ∃ e, adjacentCells N x e ∧ b e = 0) ↔
        (∃ x, x < N*N ∧ roots x = roots l ∧
          ∃ e, adjacentCells N x e ∧ pb e = 0) := by
      constructor
      · rintro ⟨x, hx, hrx, e, he, hbe⟩
        have heN : e < N*N := he.2.1
        by_cases hSe : S (roots e)
        · exfalso
          obtain ⟨⟨w, hw, hrw, hpw⟩, -⟩ := hS _ hSe
          have hpe : pb e = opp := by rw [← hM w e hw heN hrw]; exact hpw
          have hpx : pb x = opp := by rw [hM x l hx hl hrx]; exact hpl
          have hre : roots x = roots e :=
            hMerge x e hx heN he (by rw [hpx, hpe]) (by rw [hpx]; exact hopp)
          exact hSl (by rw [← hrx, hre]; exact hSe)
        · refine ⟨x, hx, hrx, e, he, ?_⟩
          rw [← (hB e heN).2 hSe]
          exact hbe
      · rintro ⟨x, hx, hrx, e, he, hpe⟩
        have heN : e < N*N := he.2.1
        by_cases hSe : S (roots e)
        · exact ⟨x, hx, hrx, e, he, (hB e heN).1 hSe⟩
        · exact ⟨x, hx, hrx, e, he, by rw [(hB e heN).2 hSe]; exact hpe⟩
    unfold removeStones
    by_cases hAlive : removeAlive N roots b l = true
    · rw [if_pos hAlive]
      have hLib := hstab.mp ((removeAlive_iff N roots b l).mp hAlive)
      constructor
      · intro c hc
        constructor
        · rintro (hSc | ⟨hrc, hdead⟩)
          · exact (hB c hc).1 hSc
          · exact absurd (hrc ▸ hLib) hdead.2
        · intro hnS
          exact (hB c hc).2 (fun hSc => hnS (Or.inl hSc))
      · rintro r (hSr | ⟨-, hdead⟩)
        · exact hS r hSr
        · exact hdead
    · rw [if_neg hAlive]
      have hnLib : ¬ ∃ x, x < N*N ∧ roots x = roots l ∧
          ∃ e, adjacentCells N x e ∧ pb e = 0 := by
        intro hLib
        exact hAlive ((removeAlive_iff N roots b l).mpr (hstab.mpr hLib))
      have hdeadl : deadOppRoot N roots pb opp (roots l) := ⟨⟨l, hl, rfl, hpl⟩, hnLib⟩
      constructor
      · intro c hc
        constructor
        · rintro (hSc | ⟨hrc, -⟩)
          · unfold clearRegion
            by_cases hrc : roots c = roots l
            · simp [hrc]
            · simp only [if_neg hrc]
              exact (hB c hc).1 hSc
          · unfold clearRegion
            simp [hrc]
        · intro hnS
          have hrc : roots c ≠ roots l := fun hrc =>
            hnS (Or.inr ⟨hrc, by rw [hrc]; exact hdeadl⟩)
          unfold clearRegion
          simp only [if_neg hrc]
          exact (hB c hc).2 (fun hSc => hnS (Or.inl hSc))
      · rintro r (hSr | ⟨-, hdead⟩)
        · exact hS r hSr
        · exact hdead

theorem stepOpp_ne {N a : ℕ} (s : GoState) (ha : a < N*N)
    (hturn : s.turn = 1 ∨ s.turn = -1) : stepOpp N s (a : ℤ) ≠ 0 := by
  rw [stepOpp_coe s ha]
  rcases hturn with h | h <;> rw [h] <;> decide

theorem stepCaptured_inv {N a : ℕ} (s : GoState) (ha : a < N*N)
    (hturn : s.turn = 1 ∨ s.turn = -1)
    (hrep : rootsRepresent N (stepRoots N s (a : ℤ)) (stepPost N s (a : ℤ))) :
    killInv N (stepRoots N s (a : ℤ)) (stepPost N s (a : ℤ)) (stepOpp N s (a : ℤ))
      (touchedDeadRoots N s (a : ℤ)) (stepCaptured N s (a : ℤ)) := by
  have hM := rootsRep_color hrep
  have hMerge := rootsRep_merge hrep
  have hopp := stepOpp_ne s ha hturn
  have h0 := killInv_init (N := N) (stepRoots N s (a : ℤ)) (stepPost N s (a : ℤ))
    (stepOpp N s (a : ℤ))
  have h1 := killAt_inv hM hMerge hopp (stepL1_lt ha) h0
  have h2 := killAt_inv hM hMerge hopp (stepL2_lt ha) h1
  have h3 := killAt_inv hM hMerge hopp (stepL3_lt ha) h2
  have h4 := killAt_inv hM hMerge hopp (stepL4_lt ha) h3
  refine killInv_congr (fun r => ?_) h4
  unfold touchedDeadRoots
  tauto

theorem groupLib_iff_rootLib {N a g : ℕ} (s : GoState) (_ha : a < N*N)
    (hg : g < N*N)
    (hrep : rootsRepresent N (stepRoots N s (a : ℤ)) (stepPost N s (a : ℤ))) :
    groupLib N (stepPost N s (a : ℤ)) g ↔
      ∃ x, x < N*N ∧ stepRoots N s (a : ℤ) x = stepRoots N s (a : ℤ) g ∧
        ∃ e, adjacentCells N x e ∧ stepPost N s (a : ℤ) e = 0 := by
  constructor
  · rintro ⟨x, hsg, e, he, hpe⟩
    rcases sameGroup_bound hsg with heq | ⟨-, hx⟩
    · subst heq
      exact ⟨g, hg, rfl, e, he, hpe⟩
    · exact ⟨x, hx, ((hrep g x hg hx).mpr hsg).symm, e, he, hpe⟩
  · rintro ⟨x, hx, hrx, e, he, hpe⟩
    exact ⟨x, (hrep g x hg hx).mp hrx.symm, e, he, hpe⟩

/-- C1: capture correctness of `step`.  For a non-pass move placing a stone
at in-board cell `a` of a state whose group tracker represents the
post-placement board (spec section 3 invariant), every cell `g` of an
opponent group orthogonally adjacent to the placed stone is cleared to
`EMPTY` in the returned board when that group has no orthogonal liberty,
and keeps its value (is untouched) when the group has at least one
liberty. -/
theorem capture_correct (N : ℕ) (komi : ℚ) (s : GoState) (a : ℕ)
    (ha : a < N*N)
    (hturn : s.turn = 1 ∨ s.turn = -1)
    (hrep : rootsRepresent N (stepRoots N s (a : ℤ)) (stepPost N s (a : ℤ)))
    (g : ℕ) (hg : g < N*N)
    (hopp : stepPost N s (a : ℤ) g = -s.turn)
    (htouch : ∃ c, sameGroup N (stepPost N s (a : ℤ)) g c ∧ adjacentCells N c a) :
    (¬ groupLib N (stepPost N s (a : ℤ)) g →
        (stepGo N komi s (a : ℤ)).1.board g = 0) ∧
    (groupLib N (stepPost N s (a : ℤ)) g →
        (stepGo N komi s (a : ℤ)).1.board g = stepPost N s (a : ℤ) g) := by
  have hM := rootsRep_color hrep
  obtain ⟨hB, hS⟩ := stepCaptured_inv s ha hturn hrep
  have hfin : (stepGo N komi s (a : ℤ)).1.board = stepSelfBoard N s (a : ℤ) := by
    show stepBoardFinal N s (a : ℤ) = stepSelfBoard N s (a : ℤ)
    unfold stepBoardFinal
    rw [stepIsPass_coe ha]
    simp
  have hga : stepRoots N s (a : ℤ) g ≠ stepRoots N s (a : ℤ) a := by
    intro h
    have hcol := hM g a hg ha h
    rw [hopp, stepPost_self s ha] at hcol
    rcases hturn with ht | ht <;> rw [ht] at hcol <;> exact absurd hcol (by decide)
  constructor
  · intro hdead
    obtain ⟨c, hsg, hca⟩ := htouch
    have hcn : c < N*N := hca.1
    have hrgc : stepRoots N s (a : ℤ) g = stepRoots N s (a : ℤ) c :=
      (hrep g c hg hcn).mpr hsg
    have hmem := adj_mem_neighbors ha hca
    have hSg : touchedDeadRoots N s (a : ℤ) (stepRoots N s (a : ℤ) g) := by
      unfold touchedDeadRoots
      refine ⟨?_, ⟨g, hg, rfl, by rw [stepOpp_coe s ha]; exact hopp⟩, ?_⟩
      · rcases hmem with h | h | h | h
        · exact Or.inl (by rw [hrgc, h])
        · exact Or.inr (Or.inl (by rw [hrgc, h]))
        · exact Or.inr (Or.inr (Or.inl (by rw [hrgc, h])))
        · exact Or.inr (Or.inr (Or.inr (by rw [hrgc, h])))
      · intro hLib
        exact hdead ((groupLib_iff_rootLib s ha hg hrep).mpr hLib)
    have hb4 : stepCaptured N s (a : ℤ) g = 0 := (hB g hg).1 hSg
    rw [hfin]
    unfold stepSelfBoard
    rw [stepA_coe ha]
    rcases removeStones_val N (stepRoots N s (a : ℤ)) (stepCaptured N s (a : ℤ)) a g
      with h | h
    · rw [h]; exact hb4
    · exact h
  · intro halive
    have hnSg : ¬ touchedDeadRoots N s (a : ℤ) (stepRoots N s (a : ℤ) g) := by
      rintro ⟨-, -, hnl⟩
      exact hnl ((groupLib_iff_rootLib s ha hg hrep).mp halive)
    have hb4 : stepCaptured N s (a : ℤ) g = stepPost N s (a : ℤ) g := (hB g hg).2 hnSg
    rw [hfin]
    unfold stepSelfBoard
    rw [stepA_coe ha]
    unfold removeStones
    by_cases hA : removeAlive N (stepRoots N s (a : ℤ)) (stepCaptured N s (a : ℤ)) a = true
    · rw [if_pos hA]; exact hb4
    · rw [if_neg hA]
      unfold clearRegion
      simp only [if_neg hga]
      exact hb4

theorem turn_ne_zero {s : GoState} (hturn : s.turn = 1 ∨ s.turn = -1) :
    s.turn ≠ 0 := by
  rcases hturn with h | h <;> rw [h] <;> decide

/-- C2: self-capture rejection.  After the opponent captures of a non-pass
move are resolved, the unconditional self-capture test clears the placed
stone exactly when its own group has no liberty on the post-capture board;
in that case `step` marks the move invalid, which makes the returned done
flag true and forces reward `-1`.  A move whose own group retains a liberty
after capturing (for instance because the capture freed one) is not cleared
and hence not marked invalid by this rule. -/
theorem self_capture_invalid (N : ℕ) (komi : ℚ) (s : GoState) (a : ℕ)
    (ha : a < N*N)
    (hturn : s.turn = 1 ∨ s.turn = -1)
    (hrep : rootsRepresent N (stepRoots N s (a : ℤ)) (stepPost N s (a : ℤ))) :
    (stepSelfBoard N s (a : ℤ) a = 0 ↔
      ¬ ∃ x, sameGroup N (stepPost N s (a : ℤ)) a x ∧
          ∃ e, adjacentCells N x e ∧ stepCaptured N s (a : ℤ) e = 0) ∧
    ((¬ ∃ x, sameGroup N (stepPost N s (a : ℤ)) a x ∧
          ∃ e, adjacentCells N x e ∧ stepCaptured N s (a : ℤ) e = 0) →
      stepInvalid N s (a : ℤ) = true ∧
      (stepGo N komi s (a : ℤ)).1.done = true ∧
      (stepGo N komi s (a : ℤ)).2 = -1) := by
  have hM := rootsRep_color hrep
  obtain ⟨hB, -⟩ := stepCaptured_inv s ha hturn hrep
  have hnSa : ¬ touchedDeadRoots N s (a : ℤ) (stepRoots N s (a : ℤ) a) := by
    rintro ⟨-, ⟨w, hw, hrw, hpw⟩, -⟩
    rw [stepOpp_coe s ha] at hpw
    have hcol := hM w a hw ha hrw
    rw [hpw, stepPost_self s ha] at hcol
    rcases hturn with ht | ht <;> rw [ht] at hcol <;> exact absurd hcol (by decide)
  have hb4a : stepCaptured N s (a : ℤ) a = s.turn := by
    rw [(hB a ha).2 hnSa]
    exact stepPost_self s ha
  have hgrpIff : (∃ x, x < N*N ∧ stepRoots N s (a : ℤ) x = stepRoots N s (a : ℤ) a ∧
        ∃ e, adjacentCells N x e ∧ stepCaptured N s (a : ℤ) e = 0) ↔
      (∃ x, sameGroup N (stepPost N s (a : ℤ)) a x ∧
        ∃ e, adjacentCells N x e ∧ stepCaptured N s (a : ℤ) e = 0) := by
    constructor
    · rintro ⟨x, hx, hr, hp⟩
      exact ⟨x, (hrep a x ha hx).mp hr.symm, hp⟩
    · rintro ⟨x, hs, hp⟩
      rcases sameGroup_bound hs with heq | ⟨-, hx⟩
      · subst heq
        exact ⟨a, ha, rfl, hp⟩
      · exact ⟨x, hx, ((hrep a x ha hx).mpr hs).symm, hp⟩
  have hIff : stepSelfBoard N s (a : ℤ) a = 0 ↔
      ¬ ∃ x, sameGroup N (stepPost N s (a : ℤ)) a x ∧
          ∃ e, adjacentCells N x e ∧ stepCaptured N s (a : ℤ) e = 0 := by
    unfold stepSelfBoard
    rw [stepA_coe ha]
    unfold removeStones
    by_cases hA : removeAlive N (stepRoots N s (a : ℤ)) (stepCaptured N s (a : ℤ)) a = true
    · rw [if_pos hA]
      have hne : stepCaptured N s (a : ℤ) a ≠ 0 := by
        rw [hb4a]; exact turn_ne_zero hturn
      have hEx := hgrpIff.mp
        ((removeAlive_iff N (stepRoots N s (a : ℤ)) (stepCaptured N s (a : ℤ)) a).mp hA)
      exact ⟨fun h => absurd h hne, fun hno => absurd hEx hno⟩
    · rw [if_neg hA]
      have hLhs : clearRegion (stepRoots N s (a : ℤ)) (stepCaptured N s (a : ℤ)) a a = 0 := by
        unfold clearRegion
        simp
      have hnEx : ¬ ∃ x, sameGroup N (stepPost N s (a : ℤ)) a x ∧
          ∃ e, adjacentCells N x e ∧ stepCaptured N s (a : ℤ) e = 0 := fun hEx =>
        hA ((removeAlive_iff N (stepRoots N s (a : ℤ)) (stepCaptured N s (a : ℤ)) a).mpr
          (hgrpIff.mpr hEx))
      exact ⟨fun _ => hnEx, fun _ => hLhs⟩
  refine ⟨hIff, fun hno => ?_⟩
  have hsb : stepSelfBoard N s (a : ℤ) a = 0 := hIff.mpr hno
  have hInv1 : stepInvalid1 N s (a : ℤ) = true := by
    unfold stepInvalid1
    rw [stepA_coe ha, hsb]
    simp
  have hInv : stepInvalid N s (a : ℤ) = true := by
    unfold stepInvalid
    rw [stepIsPass_coe ha, hInv1]
    simp
  refine ⟨hInv, ?_, ?_⟩
  · show stepDone N s (a : ℤ) = true
    unfold stepDone
    rw [hInv]
    simp
  · show stepReward N komi s (a : ℤ) = -1
    unfold stepReward
    rw [hInv]
    simp

theorem bool_le_helper {x y : Bool} (h : x = true → y = true) : x ≤ y := by
  cases x
  · exact Bool.false_le y
  · rw [h rfl]

/-- C3: repetition rejection.  A non-pass action whose resulting board
(after placement and capture resolution) exactly equals one of the stored
recent snapshots is marked invalid; and the repetition check never marks a
pass move invalid, since a pass is always valid. -/
theorem repetition_invalid (N : ℕ) (s : GoState) (action : ℤ)
    (hnp : action ≠ ((N*N : ℕ) : ℤ))
    (hmem : ∃ rb ∈ s.recentBoards, ∀ c < N*N, rb c = stepSelfBoard N s action c) :
    stepInvalid N s action = true ∧ stepInvalid N s ((N*N : ℕ) : ℤ) = false := by
  have hip : stepIsPass N action = false := by
    unfold stepIsPass
    rw [decide_eq_false_iff_not]
    exact hnp
  have hsb : stepSameBoard N s action = true := by
    unfold stepSameBoard
    rw [List.any_eq_true]
    obtain ⟨rb, hrbmem, hrb⟩ := hmem
    refine ⟨rb, hrbmem, ?_⟩
    unfold boardsEq
    rw [decide_eq_true_eq]
    exact hrb
  have hrp : stepRepeat N s action = true := by
    unfold stepRepeat
    rw [hsb, hip]
    rfl
  constructor
  · unfold stepInvalid
    rw [hip, hrp]
    simp
  · unfold stepInvalid stepIsPass
    simp

/-- C4: pass is always legal and preserves the board.  For every state,
the pass action `N*N` is never marked invalid, and the returned state's
board and group tracker equal the pre-move board and tracker, regardless of
the board's contents. -/
theorem pass_always_legal (N : ℕ) (komi : ℚ) (s : GoState) :
    stepInvalid N s ((N*N : ℕ) : ℤ) = false ∧
    (stepGo N komi s ((N*N : ℕ) : ℤ)).1.board = s.board ∧
    (stepGo N komi s ((N*N : ℕ) : ℤ)).1.dsu = s.dsu := by
  have hip : stepIsPass N ((N*N : ℕ) : ℤ) = true := by
    unfold stepIsPass
    rw [decide_eq_true_eq]
  refine ⟨?_, ?_, ?_⟩
  · unfold stepInvalid
    rw [hip]
    exact if_pos rfl
  · show stepBoardFinal N s ((N*N : ℕ) : ℤ) = s.board
    unfold stepBoardFinal
    rw [hip]
    exact if_pos rfl
  · show stepDsuFinal N s ((N*N : ℕ) : ℤ) = s.dsu
    unfold stepDsuFinal
    rw [hip]
    exact if_pos rfl

/-- C5: termination condition of `step`.  The returned done flag is exactly
`done_prev or invalid or (prevPassMove and isPass) or (count+1 >= 2*N*N)`;
in particular each of the four disjuncts forces the returned done flag, so
two consecutive passes, an invalid move, a full move counter, or an already
finished game all end the game. -/
theorem done_formula (N : ℕ) (komi : ℚ) (s : GoState) (action : ℤ) :
    (stepGo N komi s action).1.done =
      (s.done || stepInvalid N s action || (s.prevPassMove && stepIsPass N action)
        || decide (s.count + 1 ≥ 2*(N*N))) ∧
    s.done ≤ (stepGo N komi s action).1.done ∧
    stepInvalid N s action ≤ (stepGo N komi s action).1.done ∧
    (s.prevPassMove && stepIsPass N action) ≤ (stepGo N komi s action).1.done ∧
    decide (s.count + 1 ≥ 2*(N*N)) ≤ (stepGo N komi s action).1.done := by
  refine ⟨rfl, ?_, ?_, ?_, ?_⟩ <;>
  · apply bool_le_helper
    intro h
    show stepDone N s action = true
    unfold stepDone
    rw [h]
    simp

/-- C6: reward definition of `step`.  The returned reward is `-1` whenever
the move is invalid, otherwise `+1` or `-1` by the sign of the area score
for the pre-move player when the game is done (`-1` when the score is not
strictly positive), and `0` when the returned done flag is false (an
invalid move always has a true done flag). -/
theorem reward_formula (N : ℕ) (komi : ℚ) (s : GoState) (action : ℤ) :
    (stepGo N komi s action).2 =
      (if stepInvalid N s action then (-1 : ℚ)
       else if (stepGo N komi s action).1.done then
         (if 0 < stepScore N komi s action then 1 else -1)
       else 0) ∧
    stepInvalid N s action ≤ (stepGo N komi s action).1.done := by
  refine ⟨rfl, ?_⟩
  apply bool_le_helper
  intro h
  show stepDone N s action = true
  unfold stepDone
  rw [h]
  simp

/-- C7 (amended): the komi term of `final_score` is `self.turn * komi`,
read from the state's current turn field and independent of the
perspective argument: `final_score(board, t)` equals
`(stones(t) + eyes(t)) - (stones(-t) + eyes(-t)) - turn_state * komi`.
In the engine's own call (perspective equal to the current turn) this
credits the komi to WHITE for either player to move; it is not a fixed
bonus for the non-perspective color for both perspectives. -/
theorem final_score_formula (N : ℕ) (komi : ℚ) (selfTurn t : ℤ) (b : ℕ → ℤ) :
    finalScore N komi selfTurn b t =
      ((countStones N b t : ℚ) + (countEyes N b t : ℚ))
        - ((countStones N b (-t) : ℚ) + (countEyes N b (-t) : ℚ))
        - (selfTurn : ℚ) * komi := by
  unfold finalScore
  ring

/-- C7 counterexample: with the current turn WHITE and perspective BLACK on
the empty 1-by-1 board with komi one half, `final_score` differs from the
spec's formula in which the komi is charged against the perspective color:
the code yields `1/2` where the claimed formula yields `-1/2`. -/
theorem komi_direction_counterexample :
    finalScore 1 (1/2) (-1) (fun _ => 0) 1 ≠ specFinalScore 1 (1/2) (fun _ => 0) 1 := by
  have h1 : countStones 1 (fun _ => 0) 1 = 0 := by decide
  have h2 : countStones 1 (fun _ => 0) (-1) = 0 := by decide
  have h3 : countEyes 1 (fun _ => 0) 1 = 1 := by decide
  have h4 : countEyes 1 (fun _ => 0) (-1) = 1 := by decide
  unfold finalScore specFinalScore
  rw [h1, h2, h3, h4]
  norm_num

theorem eyeInd_true_of {N i j : ℕ} (hj : j < N) (b : ℕ → ℤ) (t : ℤ)
    (h1 : i = 0 ∨ b ((i-1)*N + j) = t) (h2 : i = N-1 ∨ b ((i+1)*N + j) = t)
    (h3 : j = 0 ∨ b (i*N + (j-1)) = t) (h4 : j = N-1 ∨ b (i*N + (j+1)) = t) :
    eyeInd N b t (i*N + j) = true := by
  unfold eyeInd
  rw [cell_div hj, cell_mod hj]
  simp only [Bool.and_eq_true, Bool.or_eq_true, decide_eq_true_eq]
  exact ⟨⟨h1, h2⟩, ⟨h3, h4⟩⟩

theorem countEyes_pos_of {N c : ℕ} (hc : c < N*N) {b : ℕ → ℤ} {t : ℤ}
    (h : eyeInd N b t c = true) : 1 ≤ countEyes N b t := by
  unfold countEyes
  have hmem : c ∈ (List.range (N*N)).filter (fun c => eyeInd N b t c) := by
    rw [List.mem_filter]
    exact ⟨List.mem_range.mpr hc, h⟩
  exact List.length_pos.mpr (List.ne_nil_of_mem hmem)

/-- C8: eye-counting boundary rule.  On a board of size at least 2, an
empty corner cell whose two real orthogonal neighbors both hold color `t`
is counted as an eye for `t` by `count_eyes` (all four corners), and an
empty top-edge cell needs only its three real neighbors to match, because
off-board neighbors are padded as automatically matching. -/
theorem eye_corner_rule (N : ℕ) (b : ℕ → ℤ) (t : ℤ) (hN : 2 ≤ N) :
    (b 0 = 0 → b 1 = t → b N = t →
      eyeInd N b t 0 = true ∧ 1 ≤ countEyes N b t) ∧
    (b (N-1) = 0 → b (N-2) = t → b (N + (N-1)) = t →
      eyeInd N b t (N-1) = true ∧ 1 ≤ countEyes N b t) ∧
    (b ((N-1)*N) = 0 → b ((N-2)*N) = t → b ((N-1)*N + 1) = t →
      eyeInd N b t ((N-1)*N) = true ∧ 1 ≤ countEyes N b t) ∧
    (b ((N-1)*N + (N-1)) = 0 → b ((N-2)*N + (N-1)) = t → b ((N-1)*N + (N-2)) = t →
      eyeInd N b t ((N-1)*N + (N-1)) = true ∧ 1 ≤ countEyes N b t) ∧
    (∀ j, 0 < j → j < N-1 → b j = 0 → b (j-1) = t → b (j+1) = t → b (N + j) = t →
      eyeInd N b t j = true) := by
  have hNpos : 0 < N := by omega
  have hNN : N ≤ N*N := Nat.le_mul_of_pos_left N hNpos
  refine ⟨?_, ?_, ?_, ?_, ?_⟩
  · intro _ hb1 hbN
    have he : eyeInd N b t (0*N + 0) = true := by
      refine eyeInd_true_of hNpos b t (Or.inl rfl) (Or.inr ?_) (Or.inl rfl) (Or.inr ?_)
      · have e : (0+1)*N + 0 = N := by ring
        rw [e]; exact hbN
      · have e : 0*N + (0+1) = 1 := by ring
        rw [e]; exact hb1
    have e0 : 0*N + 0 = 0 := by ring
    rw [e0] at he
    exact ⟨he, countEyes_pos_of (by omega : 0 < N*N) he⟩
  · intro _ hb2 hbN
    have he : eyeInd N b t (0*N + (N-1)) = true := by
      refine eyeInd_true_of (by omega) b t (Or.inl rfl) (Or.inr ?_) (Or.inr ?_)
        (Or.inl rfl)
      · have e : (0+1)*N + (N-1) = N + (N-1) := by ring
        rw [e]; exact hbN
      · have e : 0*N + (N-1-1) = N-2 := by omega
        rw [e]; exact hb2
    have e0 : 0*N + (N-1) = N-1 := by ring
    rw [e0] at he
    exact ⟨he, countEyes_pos_of (by omega : N-1 < N*N) he⟩
  · intro _ hb2 hb1
    have he : eyeInd N b t ((N-1)*N + 0) = true := by
      refine eyeInd_true_of hNpos b t (Or.inr ?_) (Or.inl rfl) (Or.inl rfl)
        (Or.inr ?_)
      · have e1 : N-1-1 = N-2 := by omega
        rw [e1, Nat.add_zero]
        exact hb2
      · exact hb1
    rw [Nat.add_zero] at he
    refine ⟨he, countEyes_pos_of ?_ he⟩
    calc (N-1)*N < N*N := by
          exact Nat.mul_lt_mul_of_lt_of_le (by omega) (le_refl N) hNpos
      _ ≤ N*N := le_refl _
  · intro _ hbu hbl
    have he : eyeInd N b t ((N-1)*N + (N-1)) = true := by
      refine eyeInd_true_of (by omega) b t (Or.inr ?_) (Or.inl rfl) (Or.inr ?_)
        (Or.inl rfl)
      · have e1 : N-1-1 = N-2 := by omega
        rw [e1]
        exact hbu
      · have e1 : N-1-1 = N-2 := by omega
        rw [e1]
        exact hbl
    exact ⟨he, countEyes_pos_of (cell_lt (by omega) (by omega)) he⟩
  · intro j hj0 hjN hb0 hbl hbr hbd
    have he : eyeInd N b t (0*N + j) = true := by
      refine eyeInd_true_of (by omega) b t (Or.inl rfl) (Or.inr ?_) (Or.inr ?_)
        (Or.inr ?_)
      · have e : (0+1)*N + j = N + j := by ring
        rw [e]; exact hbd
      · have e : 0*N + (j-1) = j-1 := by ring
        rw [e]; exact hbl
      · have e : 0*N + (j+1) = j+1 := by ring
        rw [e]; exact hbr
    have e0 : 0*N + j = j := by ring
    rw [e0] at he
    exact he

/-- C9: history window update.  On every call to `step` -- pass moves and
invalid moves included -- the oldest snapshot (the head of the window) is
evicted and the post-move board (the board stored in the new state, which
for a pass is the unchanged pre-move board) is appended as the newest
snapshot; the window length is unchanged whenever the window is nonempty,
so it advances by exactly one snapshot per step. -/
theorem recent_window (N : ℕ) (komi : ℚ) (s : GoState) (action : ℤ) :
    (stepGo N komi s action).1.recentBoards =
      s.recentBoards.tail ++ [(stepGo N komi s action).1.board] ∧
    (stepGo N komi s action).1.recentBoards.getLast? =
      some ((stepGo N komi s action).1.board) ∧
    (0 < s.recentBoards.length →
      (stepGo N komi s action).1.recentBoards.length = s.recentBoards.length) := by
  refine ⟨rfl, ?_, ?_⟩
  · show (s.recentBoards.tail ++ [stepBoardFinal N s action]).getLast? = _
    rw [List.getLast?_concat]
    rfl
  · intro h
    show (s.recentBoards.tail ++ [stepBoardFinal N s action]).length = _
    rw [List.length_append, List.length_tail]
    simp
    omega

theorem stepCaptured_vals (N : ℕ) (s : GoState) (action : ℤ) (c : ℕ) :
    stepCaptured N s action c = stepPost N s action c ∨
    stepCaptured N s action c = 0 := by
  unfold stepCaptured
  rcases killAt_val N (stepRoots N s action) (stepOpp N s action) _
    (stepL4 N action) c with h4 | h4
  · rw [h4]
    rcases killAt_val N (stepRoots N s action) (stepOpp N s action) _
      (stepL3 N action) c with h3 | h3
    · rw [h3]
      rcases killAt_val N (stepRoots N s action) (stepOpp N s action) _
        (stepL2 N action) c with h2 | h2
      · rw [h2]
        exact killAt_val N (stepRoots N s action) (stepOpp N s action) _
          (stepL1 N action) c
      · exact Or.inr h2
    · exact Or.inr h3
  · exact Or.inr h4

theorem stepSelfBoard_vals (N : ℕ) (s : GoState) (action : ℤ) (c : ℕ) :
    stepSelfBoard N s action c = 0 ∨ stepSelfBoard N s action c = s.turn ∨
    stepSelfBoard N s action c = s.board c := by
  unfold stepSelfBoard
  rcases removeStones_val N (stepRoots N s action) (stepCaptured N s action)
    (stepA N action) c with h | h
  · rw [h]
    rcases stepCaptured_vals N s action c with h2 | h2
    · rw [h2]
      unfold stepPost
      by_cases hc : c = stepA N action
      · rw [if_pos hc]
        exact Or.inr (Or.inl rfl)
      · rw [if_neg hc]
        exact Or.inr (Or.inr rfl)
    · exact Or.inl h2
  · exact Or.inl h

/-- C10: state-shape invariant.  Every state reachable from `reset` by any
sequence of `step` calls with arbitrary integer actions has a turn field
equal to `1` or `-1`, and every cell of its board holds only `-1`, `0` or
`1`: `step` only writes the current turn into the played cell or clears
cells to `0`, and flips or preserves the turn. -/
theorem reachable_invariant (N K : ℕ) (komi : ℚ) (s : GoState)
    (h : ReachableGo N K komi s) :
    (s.turn = 1 ∨ s.turn = -1) ∧
    (∀ c, s.board c = -1 ∨ s.board c = 0 ∨ s.board c = 1) := by
  induction h with
  | start => exact ⟨Or.inl rfl, fun _ => Or.inr (Or.inl rfl)⟩
  | move s action _ ih =>
      obtain ⟨iht, ihb⟩ := ih
      constructor
      · show (if stepDone N s action then s.turn else -s.turn) = 1 ∨
            (if stepDone N s action then s.turn else -s.turn) = -1
        by_cases hD : stepDone N s action = true
        · rw [if_pos hD]
          exact iht
        · rw [if_neg hD]
          rcases iht with ht | ht
          · rw [ht]; exact Or.inr rfl
          · rw [ht]; exact Or.inl rfl
      · intro c
        show stepBoardFinal N s action c = -1 ∨ stepBoardFinal N s action c = 0 ∨
            stepBoardFinal N s action c = 1
        unfold stepBoardFinal
        by_cases hP : stepIsPass N action = true
        · rw [if_pos hP]
          exact ihb c
        · rw [if_neg hP]
          rcases stepSelfBoard_vals N s action c with h | h | h
          · rw [h]; exact Or.inr (Or.inl rfl)
          · rw [h]
            rcases iht with ht | ht
            · rw [ht]; exact Or.inr (Or.inr rfl)
            · rw [ht]; exact Or.inl rfl
          · rw [h]; exact ihb c

theorem capture_correct_witness :
    (stepGo 2 (1/2 : ℚ) w1State ((2 : ℕ) : ℤ)).1.board 0 = 0 := by
  have hempty : ∀ x y, ¬ groupRel 2 (stepPost 2 w1State ((2 : ℕ) : ℤ)) x y := by
    intro x y hxy
    have hx : x < 4 := hxy.1.1
    have hy : y < 4 := hxy.1.2.1
    interval_cases x <;> interval_cases y <;> revert hxy <;> decide
  have hroots : ∀ x, x < 4 → stepRoots 2 w1State ((2 : ℕ) : ℤ) x = x := by decide
  have hrep : rootsRepresent 2 (stepRoots 2 w1State ((2 : ℕ) : ℤ))
      (stepPost 2 w1State ((2 : ℕ) : ℤ)) := by
    intro a c ha hc
    constructor
    · intro hr
      rw [hroots a ha, hroots c hc] at hr
      subst hr
      exact Relation.ReflTransGen.refl
    · intro hsg
      have := sameGroup_eq_of_empty hempty hsg
      subst this
      rfl
  have hdead : ¬ groupLib 2 (stepPost 2 w1State ((2 : ℕ) : ℤ)) 0 := by
    rintro ⟨x, hsg, e, he, hpe⟩
    have hx0 := sameGroup_eq_of_empty hempty hsg
    subst hx0
    have he4 : e < 4 := he.2.1
    interval_cases e <;> revert he hpe <;> decide
  exact (capture_correct 2 (1/2) w1State 2 (by decide) (Or.inl rfl) hrep 0 (by decide)
    (by decide)
    ⟨0, Relation.ReflTransGen.refl, (by decide : adjacentCells 2 0 2)⟩).1 hdead

theorem self_capture_invalid_witness :
    stepInvalid 1 (resetGo 1 1) ((0 : ℕ) : ℤ) = true ∧
    (stepGo 1 (1/2) (resetGo 1 1) ((0 : ℕ) : ℤ)).1.done = true ∧
    (stepGo 1 (1/2) (resetGo 1 1) ((0 : ℕ) : ℤ)).2 = -1 := by
  have hrep : rootsRepresent 1 (stepRoots 1 (resetGo 1 1) ((0 : ℕ) : ℤ))
      (stepPost 1 (resetGo 1 1) ((0 : ℕ) : ℤ)) := by
    intro a c ha hc
    interval_cases a
    interval_cases c
    exact iff_of_true rfl Relation.ReflTransGen.refl
  have hno : ¬ ∃ x, sameGroup 1 (stepPost 1 (resetGo 1 1) ((0 : ℕ) : ℤ)) 0 x ∧
      ∃ e, adjacentCells 1 x e ∧ stepCaptured 1 (resetGo 1 1) ((0 : ℕ) : ℤ) e = 0 := by
    rintro ⟨x, -, e, he, -⟩
    have hx1 : x < 1 := he.1
    have he1 : e < 1 := he.2.1
    interval_cases x
    interval_cases e
    revert he
    decide
  exact (self_capture_invalid 1 (1/2) (resetGo 1 1) 0 (by decide) (Or.inl rfl) hrep).2 hno

theorem repetition_invalid_witness :
    stepInvalid 1 (resetGo 1 1) ((0 : ℕ) : ℤ) = true ∧
    stepInvalid 1 (resetGo 1 1) ((1*1 : ℕ) : ℤ) = false := by
  refine repetition_invalid 1 (resetGo 1 1) ((0 : ℕ) : ℤ) (by decide) ?_
  refine ⟨fun _ => 0, ?_, ?_⟩
  · exact List.mem_replicate.mpr ⟨one_ne_zero, rfl⟩
  · intro c hc
    interval_cases c
    decide

theorem eye_corner_rule_witness :
    eyeInd 2 (fun c => if c = 0 then 0 else 1) 1 0 = true ∧
    1 ≤ countEyes 2 (fun c => if c = 0 then 0 else 1) 1 :=
  (eye_corner_rule 2 (fun c => if c = 0 then 0 else 1) 1 (by decide)).1
    (by decide) (by decide) (by decide)

theorem recent_window_witness :
    (stepGo 1 0 (resetGo 1 2) ((0 : ℕ) : ℤ)).1.recentBoards.length =
      (resetGo 1 2).recentBoards.length :=
  (recent_window 1 0 (resetGo 1 2) ((0 : ℕ) : ℤ)).2.2 (by decide)

theorem reachable_invariant_witness :
    ((resetGo 5 16).turn = 1 ∨ (resetGo 5 16).turn = -1) ∧
    (∀ c, (resetGo 5 16).board c = -1 ∨ (resetGo 5 16).board c = 0 ∨
      (resetGo 5 16).board c = 1) :=
  reachable_invariant 5 16 (1/2) (resetGo 5 16) ReachableGo.start

end GoJax
